import Mathlib

/-!
Shallow embedding of the FasterSpecFit core (files
`FasterSpecFit/sparse_rep.py` and `FasterSpecFit/emlines_sparse_custom.py`)
and proofs of the specified properties.

Arrays are modelled as functions from indices to values together with
explicit dimension arguments; Python integers are `ℤ` or `ℕ`; exact
value-level claims about float code are settled in exact arithmetic
(`ℚ` where the code is pure arithmetic, `ℝ` where it involves
`exp`/`log`/`erf`).  Buffers created with `np.empty` carry an explicit
`junk` parameter for their uninitialized entries.
-/

namespace FasterSpecFit

/-! ## ResMatrix (sparse_rep.py)

`_from_dia_matrix`: input `D` is an `ndiag × nrow` stacked-diagonal
array; output `A` is `nrow × ndiag` row-banded, with
`A[i, j - i + hdiag] = D[hdiag + i - j, j]` written exactly for
`j ∈ [max(i - hdiag, 0), min(i + hdiag, nrow - 1)]`.  `A` is created
with `np.empty`, so unwritten slots hold the arbitrary value `junk`. -/

def fromDiaMatrix (D : ℤ → ℤ → ℚ) (ndiag nrow : ℤ) (junk : ℚ) : ℤ → ℤ → ℚ :=
  fun i k =>
    let hdiag := ndiag / 2
    let j := k + i - hdiag
    if max (i - hdiag) 0 ≤ j ∧ j ≤ min (i + hdiag) (nrow - 1) then
      D (hdiag + i - j) j
    else junk

/-- Embeds `ResMatrix._matvec`: for each row `i`, accumulate
`M[i, j - i + hdiag] * v[j]` over `j ∈ [max(i-hdiag,0), min(i+hdiag,nrow-1)]`. -/
def resMatvec (M : ℤ → ℤ → ℚ) (nrow ndiag : ℤ) (v : ℤ → ℚ) : ℤ → ℚ :=
  fun i =>
    let hdiag := ndiag / 2
    ∑ j ∈ Finset.Icc (max (i - hdiag) 0) (min (i + hdiag) (nrow - 1)),
      M i (j - i + hdiag) * v j

/-- The stacked-diagonal encoding of the identity matrix:
`M[i,j] = D[hdiag - (j - i), j]`, so the identity has ones exactly on
diagonal row `hdiag` of `D`. -/
def diaIdentity (ndiag : ℤ) : ℤ → ℤ → ℚ :=
  fun r _c => if r = ndiag / 2 then 1 else 0

/-! ## Ideal-Jacobian fragment multiplication (sparse_rep.py)

A fragment is `(starts, ends, values)`; column `i` has the contiguous
nonzero run `values[i][0 .. ends[i]-starts[i])` occupying rows
`starts[i] .. ends[i])`.  `_matvec_J` zeroes `w` and accumulates
`w[j + starts[i]] += values[i][j] * v[i]`; the final content of slot `r`
is the total accumulated into it.  `_rmatvec_J` writes per-column dot
products. -/

def matvecJ (nvars : ℕ) (starts endsJ : ℕ → ℕ) (values : ℕ → ℕ → ℚ)
    (v : ℕ → ℚ) : ℕ → ℚ :=
  fun r =>
    ∑ i ∈ Finset.range nvars, ∑ j ∈ Finset.range (endsJ i - starts i),
      if j + starts i = r then values i j * v i else 0

def rmatvecJ (starts endsJ : ℕ → ℕ) (values : ℕ → ℕ → ℚ)
    (v : ℕ → ℚ) : ℕ → ℚ :=
  fun i =>
    ∑ j ∈ Finset.range (endsJ i - starts i), values i j * v (j + starts i)

/-! ## centers_to_edges (emlines_sparse_custom.py)

Per segment (camera): `icenters = centers[s:e]`,
`int_edges = 0.5 * (icenters[:-1] + icenters[1:])`,
`edge_l = icenters[0] - (icenters[1] - int_edges[0])`,
`edge_r = icenters[-1] + (icenters[-1] - int_edges[-1])`,
`edges[s+icam : e+icam+1] = hstack((edge_l, int_edges, edge_r))`.
Out-of-bounds scalar indexing raises `IndexError`, modelled by `Option`:
each of the five scalar accesses is checked. -/

def segEdgesL (ic : List ℚ) : Option (List ℚ) :=
  let intEdges := List.zipWith (fun a b => (a + b) / 2) ic ic.tail
  match ic[0]?, ic[1]?, intEdges[0]?, ic.getLast?, intEdges.getLast? with
  | some c0, some c1, some m0, some cl, some ml =>
      some ([c0 - (c1 - m0)] ++ intEdges ++ [cl + (cl - ml)])
  | _, _, _, _, _ => none

/-- The numpy slice `centers[s:e]`. -/
def sliceQ (centers : ℕ → ℚ) (s e : ℕ) : List ℚ :=
  (List.range (e - s)).map (fun i => centers (s + i))

/-- The `for icam, campix in enumerate(camerapix)` loop: segment `m`
writes its `e - s + 1` edges into positions `s + m .. e + m` of the
output (initially the uninitialized `np.empty` content `f`).  A failed
segment aborts the whole call. -/
def c2eLoop (centers : ℕ → ℚ) (cp : ℕ → ℕ × ℕ) : ℕ → (ℕ → ℚ) → Option (ℕ → ℚ)
  | 0, f => some f
  | m + 1, f =>
    match c2eLoop centers cp m f with
    | none => none
    | some g =>
      match segEdgesL (sliceQ centers (cp m).1 (cp m).2) with
      | none => none
      | some es =>
        some (fun p =>
          if (cp m).1 + m ≤ p ∧ p ≤ (cp m).2 + m then
            es.getD (p - ((cp m).1 + m)) 0
          else g p)

def centers_to_edges (centers : ℕ → ℚ) (cp : ℕ → ℕ × ℕ) (ncam : ℕ)
    (junk : ℕ → ℚ) : Option (ℕ → ℚ) :=
  c2eLoop centers cp ncam junk

/-- The spec's formula for edge `t` of a segment with `n` centers
`c 0 .. c (n-1)`: interior edges are midpoints of adjacent centers,
the ends are extrapolated. -/
def specSegmentEdge (c : ℕ → ℚ) (n t : ℕ) : ℚ :=
  if t = 0 then c 0 - (c 1 - (c 0 + c 1) / 2)
  else if t = n then c (n - 1) + (c (n - 1) - (c (n - 2) + c (n - 1)) / 2)
  else (c (t - 1) + c t) / 2

/-! ## Normal-distribution primitives (emlines_sparse_custom.py)

The code calls `math.erf` / `math.erfc`; these are the error function
`erf x = 2/√π ∫₀ˣ e^(-t²) dt` and its complement `1 - erf`. -/

noncomputable def erf (x : ℝ) : ℝ :=
  2 / Real.sqrt Real.pi * ∫ t in (0:ℝ)..x, Real.exp (-t ^ 2)

noncomputable def erfc (x : ℝ) : ℝ := 1 - erf x

def C_LIGHT : ℝ := 299792.458

def MAX_SDEV : ℝ := 5

noncomputable def SQRT_2PI : ℝ := Real.sqrt (2 * Real.pi)

/-- Embeds `norm_cdf`, branch for branch: `z = |a|`; for `z < 1` use `erf`
directly, otherwise `y = 0.5 * erfc(z/√2)` reflected for positive `a`. -/
noncomputable def norm_cdf (a : ℝ) : ℝ :=
  if |a| < 1 then 0.5 + 0.5 * erf (a * (1 / Real.sqrt 2))
  else if 0 < a then 1 - 0.5 * erfc (|a| * (1 / Real.sqrt 2))
  else 0.5 * erfc (|a| * (1 / Real.sqrt 2))

/-! ## build_emline_model (emlines_sparse_custom.py)

`np.searchsorted(a, v, side)` on a sorted array returns the number of
entries `< v` (side `left`) resp. `≤ v` (side `right`); that count is
taken as the defining form. -/

open Classical in
noncomputable def ssLeft (a : ℕ → ℝ) (n : ℕ) (v : ℝ) : ℕ :=
  ((Finset.range n).filter (fun i => a i < v)).card

open Classical in
noncomputable def ssRight (a : ℕ → ℝ) (n : ℕ) (v : ℝ) : ℕ :=
  ((Finset.range n).filter (fun i => a i ≤ v)).card

/-- Inputs of `build_emline_model` with `parameters` already split into
the three length-`nlines` arrays (`np.array_split(parameters, 3)`).
`obs`/`logE` hold the `nbins + 1` bin edges and their logs. -/
structure ModelIn where
  nlines : ℕ
  amp : ℕ → ℝ
  vsh : ℕ → ℝ
  sig : ℕ → ℝ
  nbins : ℕ
  obs : ℕ → ℝ
  logE : ℕ → ℝ
  z : ℝ
  lw : ℕ → ℝ

noncomputable def ModelIn.sigma (M : ModelIn) (j : ℕ) : ℝ := M.sig j / C_LIGHT

noncomputable def ModelIn.c (M : ModelIn) (j : ℕ) : ℝ :=
  SQRT_2PI * M.sigma j * Real.exp (0.5 * M.sigma j ^ 2)

noncomputable def ModelIn.lineShift (M : ModelIn) (j : ℕ) : ℝ := 1 + M.z + M.vsh j / C_LIGHT

noncomputable def ModelIn.shifted (M : ModelIn) (j : ℕ) : ℝ := M.lw j * M.lineShift j

noncomputable def ModelIn.logShifted (M : ModelIn) (j : ℕ) : ℝ :=
  Real.log (M.shifted j)

noncomputable def ModelIn.lo (M : ModelIn) (j : ℕ) : ℕ :=
  ssLeft M.logE (M.nbins + 1) (M.logShifted j - MAX_SDEV * M.sigma j)

noncomputable def ModelIn.hi (M : ModelIn) (j : ℕ) : ℕ :=
  ssRight M.logE (M.nbins + 1) (M.logShifted j + MAX_SDEV * M.sigma j)

noncomputable def ModelIn.nedges (M : ModelIn) (j : ℕ) : ℕ := M.hi j - M.lo j + 2

noncomputable def ModelIn.A (M : ModelIn) (j : ℕ) : ℝ :=
  M.c j * M.amp j * M.shifted j

noncomputable def ModelIn.offset (M : ModelIn) (j : ℕ) : ℝ :=
  M.logShifted j / M.sigma j + M.sigma j

/-- Content of `edge_vals[i]` for line `j` after the three assignment
groups (`edge_vals[0] = 0`, the interior CDF loop, and
`edge_vals[nedges-1] = A`, which is written last). -/
noncomputable def ModelIn.edgeVal (M : ModelIn) (j i : ℕ) : ℝ :=
  if i = M.nedges j - 1 then M.A j
  else if i = 0 then 0
  else M.A j * norm_cdf (M.logE (i + M.lo j - 1) / M.sigma j - M.offset j)

/-- Embeds `ibin_width = hstack(([0.], 1/diff(obs_bin_edges)))`. -/
noncomputable def ModelIn.ibinWidth (M : ModelIn) (k : ℕ) : ℝ :=
  if k = 0 then 0 else 1 / (M.obs k - M.obs (k - 1))

/-- The differencing loop: bin average stored at `edge_vals[i]`,
`(edge_vals[i+1] - edge_vals[i]) * ibin_width[i + lo]`. -/
noncomputable def ModelIn.binAvg (M : ModelIn) (j i : ℕ) : ℝ :=
  (M.edgeVal j (i + 1) - M.edgeVal j i) * M.ibinWidth (i + M.lo j)

/-- Index into the `ibin_width` array read by the differencing loop at
iteration `i` for line `j` (the subscript `i + lo` of
`ibin_width[i + lo]`).  The numpy array `ibin_width` built by
`hstack(([0.], 1/diff(obs_bin_edges)))` has `nbins + 1` entries, so its
valid indices are `0 .. nbins`; the loop runs `i` from `0` to
`nedges - 2`, so its largest read index is `hi`. -/
noncomputable def ModelIn.diffLoopReadIdx (M : ModelIn) (j i : ℕ) : ℕ :=
  i + M.lo j

/-- Buffer `model_fluxes` (length `nbins + 2`, entries `0` and
`nbins + 1` are dummies) after the per-line accumulation
`model_fluxes[lo:hi+1] += edge_vals[:nedges-1]`; skipped lines
(`hi == lo`) contribute nothing. -/
noncomputable def ModelIn.fluxBuf (M : ModelIn) (k : ℕ) : ℝ :=
  ∑ j ∈ Finset.range M.nlines,
    if M.hi j ≠ M.lo j ∧ M.lo j ≤ k ∧ k ≤ M.hi j then
      M.binAvg j (k - M.lo j)
    else 0

/-- The returned vector `model_fluxes[1:-1]`, index `b < nbins`. -/
noncomputable def ModelIn.flux (M : ModelIn) (b : ℕ) : ℝ := M.fluxBuf (b + 1)

noncomputable def ModelIn.sigmaMax (M : ModelIn) : ℝ :=
  if h : 0 < M.nlines then
    Finset.sup' (Finset.range M.nlines)
      (Finset.nonempty_range_iff.mpr (Nat.pos_iff_ne_zero.mp h))
      (fun j => M.sig j / C_LIGHT)
  else 0

noncomputable def ModelIn.minDiff (M : ModelIn) : ℝ :=
  if h : 0 < M.nbins then
    Finset.inf' (Finset.range M.nbins)
      (Finset.nonempty_range_iff.mpr (Nat.pos_iff_ne_zero.mp h))
      (fun k => M.logE (k + 1) - M.logE k)
  else 0

/-- Python `int()` truncates toward zero. -/
noncomputable def pyInt (x : ℝ) : ℤ := if 0 ≤ x then ⌊x⌋ else -⌊-x⌋

/-- Scratch-buffer size
`int(2*MAX_SDEV*np.max(line_sigmas/C_LIGHT) / np.min(np.diff(log_obs_bin_edges))) + 4`. -/
noncomputable def ModelIn.maxWidth (M : ModelIn) : ℤ :=
  pyInt (2 * MAX_SDEV * M.sigmaMax / M.minDiff) + 4

/-- The same evaluation restricted to the single line `j` (the call
`build_emline_model` would receive for that line alone). -/
def ModelIn.single (M : ModelIn) (j : ℕ) : ModelIn :=
  { M with nlines := 1, amp := fun _ => M.amp j, vsh := fun _ => M.vsh j,
           sig := fun _ => M.sig j, lw := fun _ => M.lw j }

/-- Embeds `build_emline_model` on a packed parameter vector of length
`3 * nlines`: `np.array_split(parameters, 3)` yields the amplitudes at
`p[0..nlines)`, velocity shifts at `p[nlines..2*nlines)` and sigmas at
`p[2*nlines..3*nlines)`. -/
def buildModelIn (p : ℕ → ℝ) (nlines : ℕ) (obs logE : ℕ → ℝ) (nbins : ℕ)
    (z : ℝ) (lw : ℕ → ℝ) : ModelIn :=
  { nlines := nlines, amp := fun j => p j, vsh := fun j => p (nlines + j),
    sig := fun j => p (2 * nlines + j), nbins := nbins, obs := obs,
    logE := logE, z := z, lw := lw }

noncomputable def build_emline_model (p : ℕ → ℝ) (nlines : ℕ)
    (obs logE : ℕ → ℝ) (nbins : ℕ) (z : ℝ) (lw : ℕ → ℝ) (b : ℕ) : ℝ :=
  (buildModelIn p nlines obs logE nbins z lw).flux b

/-! ## Support windows of build_emline_model_jacobian

Transcribed separately from the Jacobian builder's own window code
(`sigma = line_sigmas[j]/C_LIGHT`, shifted line, `searchsorted`
left/right at `log_shifted_line ∓ MAX_SDEV*sigma`). -/

noncomputable def jacLo (M : ModelIn) (j : ℕ) : ℕ :=
  ssLeft M.logE (M.nbins + 1)
    (Real.log (M.lw j * (1 + M.z + M.vsh j / C_LIGHT)) -
      MAX_SDEV * (M.sig j / C_LIGHT))

noncomputable def jacHi (M : ModelIn) (j : ℕ) : ℕ :=
  ssRight M.logE (M.nbins + 1)
    (Real.log (M.lw j * (1 + M.z + M.vsh j / C_LIGHT)) +
      MAX_SDEV * (M.sig j / C_LIGHT))

/-! ## _objective (emlines_sparse_custom.py)

The parameter-expansion block mutates the `parameters` argument in
place; the state is threaded explicitly.  numpy fancy-index assignment
gathers its right-hand side first, then stores (last store wins on
duplicate indices); the scalar tied-parameter loop reads the current
state at each step. -/

/-- Embeds `parameters[Ifree] = free_parameters`. -/
noncomputable def scatterAssign (p : ℕ → ℝ) (idx : List ℕ) (vals : ℕ → ℝ) :
    ℕ → ℝ :=
  (List.range idx.length).foldl
    (fun q t => Function.update q (idx.getD t 0) (vals t)) p

/-- Embeds `for I, indx, factor in zip(Itied, tiedtoparam, tiedfactor):
parameters[I] = parameters[indx] * factor`. -/
noncomputable def tiedLoop (p : ℕ → ℝ) (Itied tiedtoparam : List ℕ)
    (tiedfactor : List ℝ) : ℕ → ℝ :=
  (List.zip Itied (List.zip tiedtoparam tiedfactor)).foldl
    (fun q trip => Function.update q trip.1 (q trip.2.1 * trip.2.2)) p

/-- Embeds `parameters[doubletindx] *= parameters[doubletpair]` (gather both
fancy-index reads from the current state, then store the products). -/
noncomputable def doubletStep (p : ℕ → ℝ) (dind dpair : List ℕ) : ℕ → ℝ :=
  (List.range (List.zip dind dpair).length).foldl
    (fun q t =>
      Function.update q ((List.zip dind dpair).getD t (0, 0)).1
        (p ((List.zip dind dpair).getD t (0, 0)).1 *
         p ((List.zip dind dpair).getD t (0, 0)).2)) p

/-- Content of the `parameters` array after the expansion block of
`_objective` (and hence when `_objective` returns: nothing later writes
to it). -/
noncomputable def expandParams (p : ℕ → ℝ) (free : ℕ → ℝ) (Ifree : List ℕ)
    (Itied tiedtoparam : List ℕ) (tiedfactor : List ℝ)
    (dind dpair : List ℕ) : ℕ → ℝ :=
  doubletStep (tiedLoop (scatterAssign p Ifree free) Itied tiedtoparam tiedfactor)
    dind dpair

/-- One camera's modeled fluxes:
`resolution_matrix[icam].dot(build_emline_model(parameters,
obs_bin_edges[s+icam:e+icam+1], log_obs_bin_edges[s+icam:e+icam+1], ...))`,
row `r` of the dense matrix-vector product. -/
noncomputable def camModel (R : ℕ → ℕ → ℕ → ℝ) (pFull : ℕ → ℝ) (nlines : ℕ)
    (obs logE : ℕ → ℝ) (z : ℝ) (lw : ℕ → ℝ) (cps : ℕ → ℕ × ℕ)
    (icam r : ℕ) : ℝ :=
  ∑ col ∈ Finset.range ((cps icam).2 - (cps icam).1),
    R icam r col *
      build_emline_model pFull nlines
        (fun k => obs ((cps icam).1 + icam + k))
        (fun k => logE ((cps icam).1 + icam + k))
        ((cps icam).2 - (cps icam).1) z lw col

/-- The per-camera loop filling `model_fluxes[s:e]`; `f` is the
uninitialized `np.empty_like(obs_fluxes)` content. -/
noncomputable def objModelLoop (R : ℕ → ℕ → ℕ → ℝ) (pFull : ℕ → ℝ)
    (nlines : ℕ) (obs logE : ℕ → ℝ) (z : ℝ) (lw : ℕ → ℝ)
    (cps : ℕ → ℕ × ℕ) : ℕ → (ℕ → ℝ) → (ℕ → ℝ)
  | 0, f => f
  | m + 1, f => fun b =>
    if (cps m).1 ≤ b ∧ b < (cps m).2 then
      camModel R pFull nlines obs logE z lw cps m (b - (cps m).1)
    else objModelLoop R pFull nlines obs logE z lw cps m f b

/-- The value returned by `_objective` at bin `b`:
`obs_weights * (obs_fluxes - model_fluxes)` with the expanded
parameters. -/
noncomputable def objectiveResiduals (free : ℕ → ℝ) (obs logE : ℕ → ℝ)
    (obs_fluxes obs_weights : ℕ → ℝ) (z : ℝ) (lw : ℕ → ℝ) (nlines : ℕ)
    (R : ℕ → ℕ → ℕ → ℝ) (cps : ℕ → ℕ × ℕ) (ncam : ℕ) (p : ℕ → ℝ)
    (Ifree Itied tiedtoparam : List ℕ) (tiedfactor : List ℝ)
    (dind dpair : List ℕ) (junk : ℕ → ℝ) (b : ℕ) : ℝ :=
  obs_weights b * (obs_fluxes b -
    objModelLoop R (expandParams p free Ifree Itied tiedtoparam tiedfactor dind dpair)
      nlines obs logE z lw cps ncam junk b)

end FasterSpecFit

namespace FasterSpecFit

lemma segEdgesL_of_length_lt {ic : List ℚ} (h : ic.length < 2) :
    segEdgesL ic = none := by
  match ic, h with
  | [], _ => rfl
  | [a], _ => rfl

lemma sliceQ_length (centers : ℕ → ℚ) (s e : ℕ) :
    (sliceQ centers s e).length = e - s := by
  simp [sliceQ]

lemma sliceQ_getElem? (centers : ℕ → ℚ) (s e : ℕ) {i : ℕ} (hi : i < e - s) :
    (sliceQ centers s e)[i]? = some (centers (s + i)) := by
  simp [sliceQ, List.getElem?_map, List.getElem?_range hi]

lemma segEdgesL_slice (centers : ℕ → ℚ) (s e : ℕ) (h2 : s + 2 ≤ e) :
    ∃ es, segEdgesL (sliceQ centers s e) = some es ∧
      es.length = (e - s) + 1 ∧
      ∀ t, t ≤ e - s →
        es.getD t 0 = specSegmentEdge (fun i => centers (s + i)) (e - s) t := by
  set n := e - s with hn
  have hn2 : 2 ≤ n := by omega
  set ic := sliceQ centers s e with hic
  have hlen : ic.length = n := sliceQ_length centers s e
  set intEdges := List.zipWith (fun a b : ℚ => (a + b) / 2) ic ic.tail with hie
  have hielen : intEdges.length = n - 1 := by
    rw [hie, List.length_zipWith, List.length_tail, hlen]
    omega
  have hicE : ∀ (i : ℕ) (hilt : i < ic.length), ic[i] = centers (s + i) := by
    intro i hilt
    have : ic[i]? = some (centers (s + i)) := sliceQ_getElem? centers s e (by omega)
    rw [List.getElem?_eq_getElem hilt] at this
    exact Option.some.inj this
  have hieE : ∀ (i : ℕ), i < n - 1 →
      intEdges[i]? = some ((centers (s + i) + centers (s + i + 1)) / 2) := by
    intro i hi
    have hilt : i < intEdges.length := by omega
    have hilt' : i < (List.zipWith (fun a b : ℚ => (a + b) / 2) ic ic.tail).length := hilt
    rw [List.getElem?_eq_getElem hilt]
    congr 1
    show (List.zipWith (fun a b : ℚ => (a + b) / 2) ic ic.tail)[i] = _
    rw [List.getElem_zipWith]
    have h1 : i < ic.length := by omega
    have h2' : i < ic.tail.length := by rw [List.length_tail]; omega
    rw [List.getElem_tail, hicE i h1, hicE (i + 1) (by omega), Nat.add_assoc]
  have h0? : ic[0]? = some (centers s) := by
    have := sliceQ_getElem? centers s e (i := 0) (by omega)
    simpa using this
  have h1? : ic[1]? = some (centers (s + 1)) := sliceQ_getElem? centers s e (by omega)
  have hm0? : intEdges[0]? = some ((centers s + centers (s + 1)) / 2) := by
    have := hieE 0 (by omega)
    simpa using this
  have hlast? : ic.getLast? = some (centers (s + (n - 1))) := by
    rw [List.getLast?_eq_getElem?, hlen]
    exact sliceQ_getElem? centers s e (by omega)
  have hmlast? : intEdges.getLast? =
      some ((centers (s + (n - 2)) + centers (s + (n - 2) + 1)) / 2) := by
    rw [List.getLast?_eq_getElem?, hielen]
    have := hieE (n - 2) (by omega)
    simpa using this
  refine ⟨[centers s - (centers (s + 1) - (centers s + centers (s + 1)) / 2)] ++
      intEdges ++
      [centers (s + (n - 1)) + (centers (s + (n - 1)) -
        (centers (s + (n - 2)) + centers (s + (n - 2) + 1)) / 2)], ?_, ?_, ?_⟩
  · rw [segEdgesL]
    rw [show (List.zipWith (fun a b : ℚ => (a + b) / 2) ic ic.tail) = intEdges from rfl]
    rw [h0?, h1?, hm0?, hlast?, hmlast?]
  · simp [hielen]
    omega
  · intro t ht
    rcases Nat.eq_zero_or_pos t with rfl | htpos
    · simp [specSegmentEdge]
    · have h1len : ([centers s - (centers (s + 1) -
          (centers s + centers (s + 1)) / 2)] : List ℚ).length = 1 := rfl
      rw [List.getD_eq_getElem?_getD, List.append_assoc, List.getElem?_append]
      rw [h1len]
      rw [if_neg (by omega)]
      rcases Nat.lt_or_ge (t - 1) (n - 1) with hlt | hge
      · rw [List.getElem?_append, if_pos (by omega)]
        rw [hieE (t - 1) hlt]
        have ht0 : ¬ t = 0 := by omega
        have htn : ¬ t = n := by omega
        simp only [specSegmentEdge, if_neg ht0, if_neg htn, Option.getD_some]
        have : s + (t - 1) + 1 = s + t := by omega
        rw [this]
      · have htn : t = n := by omega
        subst htn
        rw [List.getElem?_append, if_neg (by omega), hielen]
        have : n - 1 - (n - 1) = 0 := by omega
        rw [this]
        simp only [List.getElem?_cons_zero, Option.getD_some]
        have hrw : s + (n - 2) + 1 = s + (n - 1) := by omega
        rw [hrw]
        simp [specSegmentEdge, show ¬ n = 0 by omega]

lemma c2eLoop_some (centers : ℕ → ℚ) (cp : ℕ → ℕ × ℕ) (f : ℕ → ℚ) :
    ∀ m, (∀ k, k < m → (cp k).1 + 2 ≤ (cp k).2) →
      ∃ g, c2eLoop centers cp m f = some g
  | 0, _ => ⟨f, rfl⟩
  | m + 1, h => by
    obtain ⟨g, hg⟩ := c2eLoop_some centers cp f m (fun k hk => h k (by omega))
    obtain ⟨es, hes, -, -⟩ :=
      segEdgesL_slice centers (cp m).1 (cp m).2 (h m (by omega))
    have heq : c2eLoop centers cp (m + 1) f =
        some (fun p =>
          if (cp m).1 + m ≤ p ∧ p ≤ (cp m).2 + m then
            es.getD (p - ((cp m).1 + m)) 0
          else g p) := by
      simp only [c2eLoop]
      rw [hg, hes]
    exact ⟨_, heq⟩

lemma c2eLoop_val (centers : ℕ → ℚ) (cp : ℕ → ℕ × ℕ) (f : ℕ → ℚ) (k : ℕ)
    (hsegk : (cp k).1 + 2 ≤ (cp k).2) (t : ℕ) (ht : t ≤ (cp k).2 - (cp k).1)
    (m : ℕ) :
    k < m → (∀ k', k < k' → k' < m → (cp k).2 + k < (cp k').1 + k') →
      ∀ g, c2eLoop centers cp m f = some g →
        g ((cp k).1 + k + t) =
          specSegmentEdge (fun i => centers ((cp k).1 + i)) ((cp k).2 - (cp k).1) t := by
  induction m with
  | zero => intro hk; omega
  | succ m ih =>
    intro hk hlater g hg
    simp only [c2eLoop] at hg
    cases h1 : c2eLoop centers cp m f with
    | none => rw [h1] at hg; exact absurd hg (by simp)
    | some g' =>
      rw [h1] at hg
      cases h2 : segEdgesL (sliceQ centers (cp m).1 (cp m).2) with
      | none => rw [h2] at hg; exact absurd hg (by simp)
      | some es =>
        rw [h2] at hg
        have hgeq := Option.some.inj hg
        subst hgeq
        simp only []
        by_cases hkm : k = m
        · subst hkm
          have hin : (cp k).1 + k ≤ (cp k).1 + k + t ∧
              (cp k).1 + k + t ≤ (cp k).2 + k := by omega
          rw [if_pos hin]
          obtain ⟨es', hes', -, hval⟩ :=
            segEdgesL_slice centers (cp k).1 (cp k).2 hsegk
          rw [hes'] at h2
          have hese := Option.some.inj h2
          subst hese
          have hidx : (cp k).1 + k + t - ((cp k).1 + k) = t := by omega
          rw [hidx]
          exact hval t ht
        · have hlt : k < m := by omega
          have hout : ¬ ((cp m).1 + m ≤ (cp k).1 + k + t ∧
              (cp k).1 + k + t ≤ (cp m).2 + m) := by
            have := hlater m (by omega) (by omega)
            omega
          rw [if_neg hout]
          exact ih hlt (fun k' h1' h2' => hlater k' h1' (by omega)) g' h1

/-- C2: `matvec` on the row-banded form built by `_from_dia_matrix`
computes the dense banded matrix-vector product: for `0 ≤ i < nrow`,
`matvec(v)[i] = ∑_{j=max(i-hdiag,0)}^{min(i+hdiag,nrow-1)} D[hdiag+i-j, j] * v[j]`,
and when `D` encodes the identity matrix the product returns `v i`. -/
theorem resMatvec_fromDiaMatrix_band (D : ℤ → ℤ → ℚ) (ndiag nrow : ℤ) (junk : ℚ)
    (v : ℤ → ℚ) (i : ℤ) (hodd : Odd ndiag) (hnd : 0 < ndiag)
    (hi0 : 0 ≤ i) (hin : i < nrow) :
    resMatvec (fromDiaMatrix D ndiag nrow junk) nrow ndiag v i =
      (∑ j ∈ Finset.Icc (max (i - ndiag / 2) 0) (min (i + ndiag / 2) (nrow - 1)),
        D (ndiag / 2 + i - j) j * v j) ∧
    resMatvec (fromDiaMatrix (diaIdentity ndiag) ndiag nrow junk) nrow ndiag v i = v i := by
  have hdnn : (0:ℤ) ≤ ndiag / 2 := Int.ediv_nonneg (le_of_lt hnd) (by norm_num)
  have hmem : i ∈ Finset.Icc (max (i - ndiag / 2) 0) (min (i + ndiag / 2) (nrow - 1)) := by
    rw [Finset.mem_Icc]
    constructor
    · exact max_le (by linarith) hi0
    · exact le_min (by linarith) (by linarith)
  have key : ∀ (E : ℤ → ℤ → ℚ),
      resMatvec (fromDiaMatrix E ndiag nrow junk) nrow ndiag v i =
        ∑ j ∈ Finset.Icc (max (i - ndiag / 2) 0) (min (i + ndiag / 2) (nrow - 1)),
          E (ndiag / 2 + i - j) j * v j := by
    intro E
    unfold resMatvec fromDiaMatrix
    refine Finset.sum_congr rfl ?_
    intro j hj
    rw [Finset.mem_Icc] at hj
    have h1 : j - i + ndiag / 2 + i - ndiag / 2 = j := by ring
    simp only [h1]
    rw [if_pos ⟨hj.1, hj.2⟩]
  refine ⟨key D, ?_⟩
  rw [key (diaIdentity ndiag)]
  have : ∀ j ∈ Finset.Icc (max (i - ndiag / 2) 0) (min (i + ndiag / 2) (nrow - 1)),
      diaIdentity ndiag (ndiag / 2 + i - j) j * v j = if j = i then v j else 0 := by
    intro j _
    unfold diaIdentity
    by_cases h : j = i
    · subst h; simp
    · have : ¬ (ndiag / 2 + i - j = ndiag / 2) := by
        intro hc
        exact h (by linarith)
      rw [if_neg this, if_neg h, zero_mul]
  rw [Finset.sum_congr rfl this, Finset.sum_ite_eq' _ i v, if_pos hmem]

/-- C2 witness: concrete instance with `ndiag = 3`, `nrow = 2`, `i = 1`. -/
theorem resMatvec_fromDiaMatrix_band_witness :
    Odd (3:ℤ) ∧ (0:ℤ) < 3 ∧ (0:ℤ) ≤ 1 ∧ (1:ℤ) < 2 ∧
    (resMatvec (fromDiaMatrix (fun r c => (r + 2 * c : ℤ)) 3 2 7) 2 3
        (fun j => (j + 1 : ℤ)) 1 =
      (∑ j ∈ Finset.Icc (max (1 - (3:ℤ) / 2) 0) (min (1 + (3:ℤ) / 2) (2 - 1)),
        ((fun r c => ((r + 2 * c : ℤ) : ℚ)) ((3:ℤ) / 2 + 1 - j) j) * (j + 1 : ℤ)) ∧
    resMatvec (fromDiaMatrix (diaIdentity 3) 3 2 7) 2 3 (fun j => (j + 1 : ℤ)) 1 =
      ((1:ℤ) + 1 : ℤ)) :=
  ⟨⟨1, by norm_num⟩, by norm_num, by norm_num, by norm_num,
    resMatvec_fromDiaMatrix_band (fun r c => (r + 2 * c : ℤ)) 3 2 7
      (fun j => (j + 1 : ℤ)) 1 ⟨1, by norm_num⟩ (by norm_num) (by norm_num) (by norm_num)⟩

/-- C4: `_matvec_J` and `_rmatvec_J` are transposes of one another:
for every fragment whose column runs end inside the bin range, and all
vectors `v` (over parameters) and `u` (over bins),
`⟨matvec_J(v), u⟩ = ⟨v, rmatvec_J(u)⟩`. -/
theorem matvecJ_rmatvecJ_adjoint (nvars nbins : ℕ) (starts endsJ : ℕ → ℕ)
    (values : ℕ → ℕ → ℚ) (v u : ℕ → ℚ)
    (hends : ∀ i, i < nvars → endsJ i ≤ nbins) :
    ∑ r ∈ Finset.range nbins, matvecJ nvars starts endsJ values v r * u r =
      ∑ i ∈ Finset.range nvars, v i * rmatvecJ starts endsJ values u i := by
  unfold matvecJ rmatvecJ
  simp only [Finset.sum_mul]
  rw [Finset.sum_comm]
  refine Finset.sum_congr rfl ?_
  intro i hi
  rw [Finset.mul_sum, Finset.sum_comm]
  refine Finset.sum_congr rfl ?_
  intro j hj
  have hmem : j + starts i ∈ Finset.range nbins := by
    rw [Finset.mem_range] at hj ⊢
    have h1 : j + starts i < endsJ i := by omega
    exact lt_of_lt_of_le h1 (hends i (Finset.mem_range.mp hi))
  have step : ∀ r ∈ Finset.range nbins,
      (if j + starts i = r then values i j * v i else 0) * u r =
        if j + starts i = r then values i j * v i * u r else 0 := by
    intro r _
    by_cases h : j + starts i = r <;> simp [h]
  rw [Finset.sum_congr rfl step, Finset.sum_ite_eq _ _ (fun r => values i j * v i * u r),
    if_pos hmem]
  ring

/-- C4 witness: a concrete two-column fragment over three bins. -/
theorem matvecJ_rmatvecJ_adjoint_witness :
    (∀ i, i < 2 → (fun k => if k = 0 then 2 else 3) i ≤ 3) ∧
    ∑ r ∈ Finset.range 3,
        matvecJ 2 (fun k => k) (fun k => if k = 0 then 2 else 3)
          (fun i j => (i + 2 * j + 1 : ℚ)) (fun i => (i + 1 : ℚ)) r *
        (fun r => (2 * r + 1 : ℚ)) r =
      ∑ i ∈ Finset.range 2,
        (fun i => (i + 1 : ℚ)) i *
          rmatvecJ (fun k => k) (fun k => if k = 0 then 2 else 3)
            (fun i j => (i + 2 * j + 1 : ℚ)) (fun r => (2 * r + 1 : ℚ)) i :=
  ⟨by decide,
    matvecJ_rmatvecJ_adjoint 2 3 (fun k => k) (fun k => if k = 0 then 2 else 3)
      (fun i j => (i + 2 * j + 1 : ℚ)) (fun i => (i + 1 : ℚ))
      (fun r => (2 * r + 1 : ℚ)) (by decide)⟩

/-- C7: for segments of at least 2 centers listed in increasing,
non-overlapping index order, `centers_to_edges` succeeds and segment `k`
with centers `centers[s:e]` receives edges at positions `s+k .. e+k`:
interior edges are arithmetic midpoints of adjacent centers, the outer
edges are the extrapolations `c₀ - (c₁ - m₀)` and `c_{n-1} + (c_{n-1} - m_{n-2})`,
and each segment's edges depend only on that segment's own centers. -/
theorem centers_to_edges_segment (centers : ℕ → ℚ) (cp : ℕ → ℕ × ℕ) (ncam : ℕ)
    (junk : ℕ → ℚ)
    (hseg : ∀ k, k < ncam → (cp k).1 + 2 ≤ (cp k).2)
    (hsorted : ∀ k k', k < k' → k' < ncam → (cp k).2 ≤ (cp k').1)
    (k : ℕ) (hk : k < ncam) (t : ℕ) (ht : t ≤ (cp k).2 - (cp k).1) :
    ∃ g, centers_to_edges centers cp ncam junk = some g ∧
      g ((cp k).1 + k + t) =
        specSegmentEdge (fun i => centers ((cp k).1 + i))
          ((cp k).2 - (cp k).1) t := by
  obtain ⟨g, hg⟩ := c2eLoop_some centers cp junk ncam hseg
  refine ⟨g, hg, ?_⟩
  refine c2eLoop_val centers cp junk k (hseg k hk) t ht ncam hk ?_ g hg
  intro k' h1 h2
  have := hsorted k k' h1 h2
  omega

/-- C7 witness: two contiguous segments `(0,2)` and `(2,4)` over linear
centers; edge `1` of segment `1`. -/
theorem centers_to_edges_segment_witness :
    (∀ k, k < 2 → ((fun k => (2 * k, 2 * k + 2)) k).1 + 2 ≤
        ((fun k => (2 * k, 2 * k + 2)) k).2) ∧
    (∀ k k', k < k' → k' < 2 → ((fun k => (2 * k, 2 * k + 2)) k).2 ≤
        ((fun k => (2 * k, 2 * k + 2)) k').1) ∧
    (1:ℕ) < 2 ∧ (1:ℕ) ≤ ((fun k => (2 * k, 2 * k + 2)) 1).2 -
        ((fun k => (2 * k, 2 * k + 2)) 1).1 ∧
    ∃ g, centers_to_edges (fun i => (i : ℚ)) (fun k => (2 * k, 2 * k + 2)) 2
        (fun _p => 0) = some g ∧
      g (((fun k => (2 * k, 2 * k + 2)) 1).1 + 1 + 1) =
        specSegmentEdge (fun i => ((((fun k => (2 * k, 2 * k + 2)) 1).1 + i : ℕ) : ℚ))
          (((fun k => (2 * k, 2 * k + 2)) 1).2 - ((fun k => (2 * k, 2 * k + 2)) 1).1) 1 :=
  ⟨fun k _ => by simp only []; omega, fun k k' h1 h2 => by simp only []; omega,
    by omega, by simp,
    centers_to_edges_segment (fun i => (i : ℚ)) (fun k => (2 * k, 2 * k + 2)) 2
      (fun _p => 0) (fun k _ => by simp only []; omega)
      (fun k k' h1 h2 => by simp only []; omega) 1 (by omega) 1 (by simp)⟩

/-- C9: an input containing a segment with fewer than 2 centers makes
`centers_to_edges` fail (modelled: the out-of-bounds scalar index raises,
so the call returns no result). -/
theorem centers_to_edges_short_segment (centers : ℕ → ℚ) (cp : ℕ → ℕ × ℕ)
    (ncam : ℕ) (junk : ℕ → ℚ) (k : ℕ) (hk : k < ncam)
    (hshort : (cp k).2 - (cp k).1 < 2) :
    centers_to_edges centers cp ncam junk = none := by
  unfold centers_to_edges
  induction ncam with
  | zero => omega
  | succ m ih =>
    simp only [c2eLoop]
    by_cases hkm : k = m
    · subst hkm
      cases h1 : c2eLoop centers cp k junk with
      | none => rfl
      | some g =>
        have hnone : segEdgesL (sliceQ centers (cp k).1 (cp k).2) = none := by
          refine segEdgesL_of_length_lt ?_
          rw [sliceQ_length]
          omega
        rw [hnone]
    · have hm : c2eLoop centers cp m junk = none := ih (by omega)
      rw [hm]

lemma gaussIntegrable (x y : ℝ) :
    IntervalIntegrable (fun t => Real.exp (-t ^ 2)) MeasureTheory.volume x y :=
  Continuous.intervalIntegrable (by continuity) x y

lemma erf_zero : erf 0 = 0 := by
  unfold erf
  simp

lemma erf_neg (x : ℝ) : erf (-x) = - erf x := by
  unfold erf
  have h : ∫ t in (0:ℝ)..(-x), Real.exp (-t ^ 2) =
      - ∫ t in (0:ℝ)..x, Real.exp (-t ^ 2) := by
    have hc : ∀ t : ℝ, Real.exp (-t ^ 2) = Real.exp (-(-t) ^ 2) := by
      intro t; ring_nf
    calc ∫ t in (0:ℝ)..(-x), Real.exp (-t ^ 2)
        = ∫ t in (0:ℝ)..(-x), Real.exp (-(-t) ^ 2) := by
          refine intervalIntegral.integral_congr ?_
          intro t _
          exact hc t
      _ = ∫ t in (-(-x))..(-(0:ℝ)), Real.exp (-t ^ 2) := by
          exact intervalIntegral.integral_comp_neg (fun t => Real.exp (-t ^ 2))
      _ = - ∫ t in (0:ℝ)..x, Real.exp (-t ^ 2) := by
          rw [neg_neg, neg_zero, intervalIntegral.integral_symm]
  rw [h]
  ring

lemma erf_monotone : Monotone erf := by
  intro x y hxy
  unfold erf
  have hnn : (0:ℝ) ≤ 2 / Real.sqrt Real.pi := by positivity
  refine mul_le_mul_of_nonneg_left ?_ hnn
  have hadd := intervalIntegral.integral_add_adjacent_intervals
    (gaussIntegrable 0 x) (gaussIntegrable x y)
  have hpos : 0 ≤ ∫ t in x..y, Real.exp (-t ^ 2) :=
    intervalIntegral.integral_nonneg hxy (fun u _ => (Real.exp_pos _).le)
  linarith

lemma norm_cdf_closed (a : ℝ) :
    norm_cdf a = 0.5 + 0.5 * erf (a * (1 / Real.sqrt 2)) := by
  unfold norm_cdf erfc
  by_cases h1 : |a| < 1
  · rw [if_pos h1]
  · rw [if_neg h1]
    by_cases h2 : 0 < a
    · rw [if_pos h2, abs_of_pos h2]
      ring
    · rw [if_neg h2, abs_of_nonpos (le_of_not_lt h2)]
      rw [show -a * (1 / Real.sqrt 2) = -(a * (1 / Real.sqrt 2)) by ring, erf_neg]
      ring

/-- C6: `norm_cdf` satisfies the reflection identity
`norm_cdf x + norm_cdf (-x) = 1` for every real `x` (across both the
`erf` and `erfc` branches), `norm_cdf 0 = 0.5`, and `norm_cdf` is
monotonically non-decreasing on all of `ℝ`. -/
theorem norm_cdf_reflection_half_monotone :
    (∀ x : ℝ, norm_cdf x + norm_cdf (-x) = 1) ∧
    norm_cdf 0 = 0.5 ∧ Monotone norm_cdf := by
  refine ⟨?_, ?_, ?_⟩
  · intro x
    rw [norm_cdf_closed, norm_cdf_closed,
      show -x * (1 / Real.sqrt 2) = -(x * (1 / Real.sqrt 2)) by ring, erf_neg]
    ring
  · rw [norm_cdf_closed]
    rw [zero_mul, erf_zero]
    norm_num
  · intro x y hxy
    rw [norm_cdf_closed, norm_cdf_closed]
    have hc : (0:ℝ) ≤ 1 / Real.sqrt 2 := by positivity
    have := erf_monotone (mul_le_mul_of_nonneg_right hxy hc)
    linarith

/-- C8: the Jacobian builder computes, per line, exactly the same
support window `(lo, hi)` as `build_emline_model` (same `searchsorted`
bounds at `log-center ∓ MAX_SDEV*sigma`), and skips a line under
exactly the same condition `hi == lo`. -/
theorem jacobian_window_matches_model (M : ModelIn) (j : ℕ) :
    jacLo M j = M.lo j ∧ jacHi M j = M.hi j ∧
    (jacHi M j = jacLo M j ↔ M.hi j = M.lo j) :=
  ⟨rfl, rfl, Iff.rfl⟩

lemma single_flux (M : ModelIn) (j b : ℕ) :
    (M.single j).flux b =
      if M.hi j ≠ M.lo j ∧ M.lo j ≤ b + 1 ∧ b + 1 ≤ M.hi j then
        M.binAvg j (b + 1 - M.lo j)
      else 0 := by
  unfold ModelIn.flux ModelIn.fluxBuf
  have h1 : (M.single j).nlines = 1 := rfl
  rw [h1, Finset.sum_range_one]
  rfl

/-- C5: the model output is the pointwise sum of the single-line
outputs; a line contributes zero at every output bin outside its own
window; a line with empty window (`hi == lo`) is skipped and
contributes zero everywhere; and an output bin inside no line's window
is exactly zero. -/
theorem model_superposition (M : ModelIn) (b : ℕ) (hb : b < M.nbins) :
    M.flux b = (∑ j ∈ Finset.range M.nlines, (M.single j).flux b) ∧
    (∀ j, j < M.nlines → M.hi j = M.lo j → (M.single j).flux b = 0) ∧
    (∀ j, j < M.nlines → (b + 1 < M.lo j ∨ M.hi j < b + 1) →
      (M.single j).flux b = 0) ∧
    ((∀ j, j < M.nlines → b + 1 < M.lo j ∨ M.hi j < b + 1) →
      M.flux b = 0) := by
  refine ⟨?_, ?_, ?_, ?_⟩
  · rw [Finset.sum_congr rfl (fun j _ => single_flux M j b)]
    rfl
  · intro j _ hskip
    rw [single_flux, if_neg]
    intro hcond
    exact hcond.1 hskip
  · intro j _ hout
    rw [single_flux, if_neg]
    intro hcond
    obtain ⟨-, h2, h3⟩ := hcond
    omega
  · intro hall
    unfold ModelIn.flux ModelIn.fluxBuf
    refine Finset.sum_eq_zero ?_
    intro j hj
    rw [if_neg]
    intro hcond
    obtain ⟨-, h2, h3⟩ := hcond
    rcases hall j (Finset.mem_range.mp hj) with h | h <;> omega

/-- C5 witness: one-line model over a single bin. -/
theorem model_superposition_witness :
    0 < (buildModelIn (fun _ => 0) 1 (fun k => (k:ℝ)) (fun k => (k:ℝ)) 1 0
        (fun _ => 1)).nbins ∧
    ((buildModelIn (fun _ => 0) 1 (fun k => (k:ℝ)) (fun k => (k:ℝ)) 1 0
        (fun _ => 1)).flux 0 =
      (∑ j ∈ Finset.range (buildModelIn (fun _ => 0) 1 (fun k => (k:ℝ))
          (fun k => (k:ℝ)) 1 0 (fun _ => 1)).nlines,
        ((buildModelIn (fun _ => 0) 1 (fun k => (k:ℝ)) (fun k => (k:ℝ)) 1 0
          (fun _ => 1)).single j).flux 0) ∧
    (∀ j, j < (buildModelIn (fun _ => 0) 1 (fun k => (k:ℝ)) (fun k => (k:ℝ)) 1 0
        (fun _ => 1)).nlines →
      (buildModelIn (fun _ => 0) 1 (fun k => (k:ℝ)) (fun k => (k:ℝ)) 1 0
        (fun _ => 1)).hi j =
        (buildModelIn (fun _ => 0) 1 (fun k => (k:ℝ)) (fun k => (k:ℝ)) 1 0
          (fun _ => 1)).lo j →
      ((buildModelIn (fun _ => 0) 1 (fun k => (k:ℝ)) (fun k => (k:ℝ)) 1 0
        (fun _ => 1)).single j).flux 0 = 0) ∧
    (∀ j, j < (buildModelIn (fun _ => 0) 1 (fun k => (k:ℝ)) (fun k => (k:ℝ)) 1 0
        (fun _ => 1)).nlines →
      (0 + 1 < (buildModelIn (fun _ => 0) 1 (fun k => (k:ℝ)) (fun k => (k:ℝ)) 1 0
          (fun _ => 1)).lo j ∨
       (buildModelIn (fun _ => 0) 1 (fun k => (k:ℝ)) (fun k => (k:ℝ)) 1 0
          (fun _ => 1)).hi j < 0 + 1) →
      ((buildModelIn (fun _ => 0) 1 (fun k => (k:ℝ)) (fun k => (k:ℝ)) 1 0
        (fun _ => 1)).single j).flux 0 = 0) ∧
    ((∀ j, j < (buildModelIn (fun _ => 0) 1 (fun k => (k:ℝ)) (fun k => (k:ℝ)) 1 0
        (fun _ => 1)).nlines →
      0 + 1 < (buildModelIn (fun _ => 0) 1 (fun k => (k:ℝ)) (fun k => (k:ℝ)) 1 0
          (fun _ => 1)).lo j ∨
       (buildModelIn (fun _ => 0) 1 (fun k => (k:ℝ)) (fun k => (k:ℝ)) 1 0
          (fun _ => 1)).hi j < 0 + 1) →
      (buildModelIn (fun _ => 0) 1 (fun k => (k:ℝ)) (fun k => (k:ℝ)) 1 0
        (fun _ => 1)).flux 0 = 0)) :=
  ⟨Nat.one_pos,
    model_superposition
      (buildModelIn (fun _ => 0) 1 (fun k => (k:ℝ)) (fun k => (k:ℝ)) 1 0
        (fun _ => 1)) 0 Nat.one_pos⟩

open Classical in
lemma ssRight_eq_ssLeft_add (a : ℕ → ℝ) (n : ℕ) (v1 v2 : ℝ) (h : v1 ≤ v2) :
    ssRight a n v2 = ssLeft a n v1 +
      ((Finset.range n).filter (fun i => v1 ≤ a i ∧ a i ≤ v2)).card := by
  unfold ssLeft ssRight
  have hsub : (Finset.range n).filter (fun i => a i < v1) ⊆
      (Finset.range n).filter (fun i => a i ≤ v2) := by
    intro i hi
    simp only [Finset.mem_filter] at hi ⊢
    exact ⟨hi.1, le_trans (le_of_lt hi.2) h⟩
  have hdiff : (Finset.range n).filter (fun i => a i ≤ v2) \
      (Finset.range n).filter (fun i => a i < v1) =
      (Finset.range n).filter (fun i => v1 ≤ a i ∧ a i ≤ v2) := by
    ext i
    simp only [Finset.mem_sdiff, Finset.mem_filter]
    constructor
    · rintro ⟨⟨h1, h2⟩, h3⟩
      refine ⟨h1, ?_, h2⟩
      by_contra hc
      exact h3 ⟨h1, lt_of_not_le hc⟩
    · rintro ⟨h1, h2, h3⟩
      exact ⟨⟨h1, h3⟩, fun hc => absurd hc.2 (not_lt_of_le h2)⟩
  have hcard := Finset.card_sdiff_add_card_eq_card hsub
  rw [hdiff] at hcard
  omega

lemma ssLeft_pos (a : ℕ → ℝ) (n : ℕ) (v : ℝ) (hn : 0 < n) (h : a 0 < v) :
    1 ≤ ssLeft a n v := by
  unfold ssLeft
  refine Finset.one_le_card.mpr ⟨0, ?_⟩
  simp only [Finset.mem_filter, Finset.mem_range]
  exact ⟨hn, h⟩

lemma ssRight_lt_last (a : ℕ → ℝ) (n : ℕ) (v : ℝ) (h : v < a n) :
    ssRight a (n + 1) v ≤ n := by
  unfold ssRight
  have hsub : (Finset.range (n + 1)).filter (fun i => a i ≤ v) ⊆
      Finset.range n := by
    intro i hi
    simp only [Finset.mem_filter, Finset.mem_range] at hi
    rw [Finset.mem_range]
    rcases Nat.lt_or_ge i n with h1 | h1
    · exact h1
    · exfalso
      have : i = n := by omega
      subst this
      exact absurd hi.2 (not_le_of_lt h)
  simpa using Finset.card_le_card hsub

lemma ssRight_le (a : ℕ → ℝ) (n : ℕ) (v : ℝ) : ssRight a n v ≤ n := by
  unfold ssRight
  simpa using Finset.card_filter_le (Finset.range n) _

/-- Total-area telescope for a one-line model: when the log edges
strictly bracket the `±MAX_SDEV·σ` window and at least one log edge
falls inside it, the bin-average fluxes times bin widths sum to the
asymptotic constant `A = c·amp·shifted_line`. -/
lemma model_total_area (M : ModelIn) (hnl : M.nlines = 1)
    (hobs : ∀ k, k < M.nbins → M.obs k < M.obs (k + 1))
    (hcov0 : M.logE 0 < M.logShifted 0 - MAX_SDEV * M.sigma 0)
    (hcovN : M.logShifted 0 + MAX_SDEV * M.sigma 0 < M.logE M.nbins)
    (i0 : ℕ) (hi0 : i0 ≤ M.nbins)
    (hwin1 : M.logShifted 0 - MAX_SDEV * M.sigma 0 ≤ M.logE i0)
    (hwin2 : M.logE i0 ≤ M.logShifted 0 + MAX_SDEV * M.sigma 0) :
    ∑ b ∈ Finset.range M.nbins, M.flux b * (M.obs (b + 1) - M.obs b) =
      M.A 0 := by
  classical
  have hv : M.logShifted 0 - MAX_SDEV * M.sigma 0 ≤
      M.logShifted 0 + MAX_SDEV * M.sigma 0 := le_trans hwin1 hwin2
  have hsplit : M.hi 0 = M.lo 0 +
      ((Finset.range (M.nbins + 1)).filter
        (fun i => M.logShifted 0 - MAX_SDEV * M.sigma 0 ≤ M.logE i ∧
          M.logE i ≤ M.logShifted 0 + MAX_SDEV * M.sigma 0)).card :=
    ssRight_eq_ssLeft_add M.logE (M.nbins + 1) _ _ hv
  have hT1 : 1 ≤ ((Finset.range (M.nbins + 1)).filter
      (fun i => M.logShifted 0 - MAX_SDEV * M.sigma 0 ≤ M.logE i ∧
        M.logE i ≤ M.logShifted 0 + MAX_SDEV * M.sigma 0)).card := by
    refine Finset.one_le_card.mpr ⟨i0, ?_⟩
    simp only [Finset.mem_filter, Finset.mem_range]
    exact ⟨by omega, hwin1, hwin2⟩
  have hlo1 : 1 ≤ M.lo 0 := ssLeft_pos M.logE (M.nbins + 1) _ (by omega) hcov0
  have hhin : M.hi 0 ≤ M.nbins := ssRight_lt_last M.logE M.nbins _ hcovN
  have hlohi : M.lo 0 < M.hi 0 := by omega
  have hflux : ∀ b, M.flux b =
      if M.lo 0 ≤ b + 1 ∧ b + 1 ≤ M.hi 0 then M.binAvg 0 (b + 1 - M.lo 0)
      else 0 := by
    intro b
    unfold ModelIn.flux ModelIn.fluxBuf
    rw [hnl, Finset.sum_range_one]
    by_cases hc : M.lo 0 ≤ b + 1 ∧ b + 1 ≤ M.hi 0
    · rw [if_pos ⟨by omega, hc.1, hc.2⟩, if_pos hc]
    · rw [if_neg (fun hcond => hc ⟨hcond.2.1, hcond.2.2⟩), if_neg hc]
  have hterm : ∀ b ∈ Finset.range M.nbins,
      M.flux b * (M.obs (b + 1) - M.obs b) =
        if M.lo 0 ≤ b + 1 ∧ b + 1 ≤ M.hi 0 then
          (M.edgeVal 0 (b + 1 - M.lo 0 + 1) - M.edgeVal 0 (b + 1 - M.lo 0))
        else 0 := by
    intro b hb
    rw [hflux b]
    by_cases hc : M.lo 0 ≤ b + 1 ∧ b + 1 ≤ M.hi 0
    · rw [if_pos hc, if_pos hc]
      unfold ModelIn.binAvg ModelIn.ibinWidth
      rw [show b + 1 - M.lo 0 + M.lo 0 = b + 1 by omega]
      rw [if_neg (by omega : ¬ b + 1 = 0)]
      rw [show b + 1 - 1 = b from rfl]
      have hb' : b < M.nbins := Finset.mem_range.mp hb
      have hwne : M.obs (b + 1) - M.obs b ≠ 0 :=
        sub_ne_zero_of_ne (ne_of_gt (hobs b hb'))
      rw [one_div, mul_assoc, inv_mul_cancel₀ hwne, mul_one]
    · rw [if_neg hc, if_neg hc, zero_mul]
  rw [Finset.sum_congr rfl hterm, ← Finset.sum_filter]
  have hfil : (Finset.range M.nbins).filter
      (fun b => M.lo 0 ≤ b + 1 ∧ b + 1 ≤ M.hi 0) =
      Finset.Ico (M.lo 0 - 1) (M.hi 0) := by
    ext b
    simp only [Finset.mem_filter, Finset.mem_range, Finset.mem_Ico]
    omega
  rw [hfil, Finset.sum_Ico_eq_sum_range]
  rw [show M.hi 0 - (M.lo 0 - 1) = M.hi 0 - M.lo 0 + 1 by omega]
  have hcongr : ∀ k ∈ Finset.range (M.hi 0 - M.lo 0 + 1),
      (M.edgeVal 0 (M.lo 0 - 1 + k + 1 - M.lo 0 + 1) -
        M.edgeVal 0 (M.lo 0 - 1 + k + 1 - M.lo 0)) =
        (M.edgeVal 0 (k + 1) - M.edgeVal 0 k) := by
    intro k _
    rw [show M.lo 0 - 1 + k + 1 - M.lo 0 + 1 = k + 1 by omega,
      show M.lo 0 - 1 + k + 1 - M.lo 0 = k by omega]
  rw [Finset.sum_congr rfl hcongr, Finset.sum_range_sub (fun i => M.edgeVal 0 i)]
  have hF0 : M.edgeVal 0 0 = 0 := by
    unfold ModelIn.edgeVal ModelIn.nedges
    rw [if_neg (by omega), if_pos rfl]
  have hFtop : M.edgeVal 0 (M.hi 0 - M.lo 0 + 1) = M.A 0 := by
    unfold ModelIn.edgeVal ModelIn.nedges
    rw [if_pos (by omega)]
  rw [hF0, hFtop, sub_zero]

/-- C3 (amended): for a single line (parameters `p = [amp, vshift, sigma]`,
`sigma > 0`) over strictly increasing bin edges whose log edges strictly
bracket the `±MAX_SDEV·σ` window and contain at least one edge inside it,
the sum of the returned bin-average fluxes times bin widths equals the
asymptotic total-area constant
`√(2π)·σ·exp(σ²/2) · amp · shifted_line` — not the bare amplitude. -/
theorem build_emline_model_total_area (p : ℕ → ℝ) (obs logE : ℕ → ℝ)
    (nbins : ℕ) (z : ℝ) (lw : ℕ → ℝ)
    (hsig : 0 < p 2)
    (hobs : ∀ k, k < nbins → obs k < obs (k + 1))
    (hcov0 : logE 0 < Real.log (lw 0 * (1 + z + p 1 / C_LIGHT)) -
      MAX_SDEV * (p 2 / C_LIGHT))
    (hcovN : Real.log (lw 0 * (1 + z + p 1 / C_LIGHT)) +
      MAX_SDEV * (p 2 / C_LIGHT) < logE nbins)
    (i0 : ℕ) (hi0 : i0 ≤ nbins)
    (hwin1 : Real.log (lw 0 * (1 + z + p 1 / C_LIGHT)) -
      MAX_SDEV * (p 2 / C_LIGHT) ≤ logE i0)
    (hwin2 : logE i0 ≤ Real.log (lw 0 * (1 + z + p 1 / C_LIGHT)) +
      MAX_SDEV * (p 2 / C_LIGHT)) :
    ∑ b ∈ Finset.range nbins,
        build_emline_model p 1 obs logE nbins z lw b * (obs (b + 1) - obs b) =
      SQRT_2PI * (p 2 / C_LIGHT) * Real.exp (0.5 * (p 2 / C_LIGHT) ^ 2) *
        p 0 * (lw 0 * (1 + z + p 1 / C_LIGHT)) :=
  model_total_area (buildModelIn p 1 obs logE nbins z lw) rfl hobs
    hcov0 hcovN i0 hi0 hwin1 hwin2

/-- C3 witness: one line (`amp = 1`, `vshift = 0`, `sigma = C_LIGHT`,
so `σ = 1` in log space), rest wavelength 1 at redshift 0, log edges
`(-6, 0, 6)`, bin edges `(0, 1, 2)`. -/
theorem build_emline_model_total_area_witness :
    (0:ℝ) < (fun t : ℕ => if t = 0 then (1:ℝ) else if t = 1 then 0 else C_LIGHT) 2 ∧
    (1:ℕ) ≤ 2 ∧
    ∑ b ∈ Finset.range 2,
        build_emline_model
          (fun t => if t = 0 then (1:ℝ) else if t = 1 then 0 else C_LIGHT) 1
          (fun k => (k:ℝ))
          (fun k => if k = 0 then (-6:ℝ) else if k = 1 then 0 else 6)
          2 0 (fun _ => 1) b *
        ((fun k : ℕ => (k:ℝ)) (b + 1) - (fun k : ℕ => (k:ℝ)) b) =
      SQRT_2PI *
        ((fun t : ℕ => if t = 0 then (1:ℝ) else if t = 1 then 0 else C_LIGHT) 2 /
          C_LIGHT) *
        Real.exp (0.5 *
          ((fun t : ℕ => if t = 0 then (1:ℝ) else if t = 1 then 0 else C_LIGHT) 2 /
            C_LIGHT) ^ 2) *
        (fun t : ℕ => if t = 0 then (1:ℝ) else if t = 1 then 0 else C_LIGHT) 0 *
        ((fun _ : ℕ => (1:ℝ)) 0 * (1 + 0 +
          (fun t : ℕ => if t = 0 then (1:ℝ) else if t = 1 then 0 else C_LIGHT) 1 /
            C_LIGHT)) :=
  ⟨by norm_num [C_LIGHT], by norm_num,
    build_emline_model_total_area
      (fun t => if t = 0 then (1:ℝ) else if t = 1 then 0 else C_LIGHT)
      (fun k => (k:ℝ))
      (fun k => if k = 0 then (-6:ℝ) else if k = 1 then 0 else 6)
      2 0 (fun _ => 1)
      (by norm_num [C_LIGHT])
      (by intro k _; push_cast; linarith)
      (by norm_num [MAX_SDEV, C_LIGHT, Real.log_one])
      (by norm_num [MAX_SDEV, C_LIGHT, Real.log_one])
      1 (by norm_num)
      (by norm_num [MAX_SDEV, C_LIGHT, Real.log_one])
      (by norm_num [MAX_SDEV, C_LIGHT, Real.log_one])⟩

/-- C3 counterexample: at the witness's concrete input the summed area
is `√(2π)·e^(1/2) > 2`, not the line amplitude `1`: the claim's
"equals A (the amplitude)" is false as stated. -/
theorem build_emline_model_total_area_ne_amplitude :
    ∑ b ∈ Finset.range 2,
        build_emline_model
          (fun t => if t = 0 then (1:ℝ) else if t = 1 then 0 else C_LIGHT) 1
          (fun k => (k:ℝ))
          (fun k => if k = 0 then (-6:ℝ) else if k = 1 then 0 else 6)
          2 0 (fun _ => 1) b *
        ((fun k : ℕ => (k:ℝ)) (b + 1) - (fun k : ℕ => (k:ℝ)) b) ≠
      (fun t : ℕ => if t = 0 then (1:ℝ) else if t = 1 then 0 else C_LIGHT) 0 := by
  intro heq
  have h := model_total_area
    (buildModelIn (fun t => if t = 0 then (1:ℝ) else if t = 1 then 0 else C_LIGHT)
      1 (fun k => (k:ℝ))
      (fun k => if k = 0 then (-6:ℝ) else if k = 1 then 0 else 6) 2 0 (fun _ => 1))
    rfl
    (by intro k hk
        simp only [buildModelIn] at hk ⊢
        push_cast
        linarith)
    (by simp only [buildModelIn, ModelIn.logShifted, ModelIn.shifted,
        ModelIn.lineShift, ModelIn.sigma]
        norm_num [MAX_SDEV, C_LIGHT, Real.log_one])
    (by simp only [buildModelIn, ModelIn.logShifted, ModelIn.shifted,
        ModelIn.lineShift, ModelIn.sigma]
        norm_num [MAX_SDEV, C_LIGHT, Real.log_one])
    1 (by norm_num [buildModelIn])
    (by simp only [buildModelIn, ModelIn.logShifted, ModelIn.shifted,
        ModelIn.lineShift, ModelIn.sigma]
        norm_num [MAX_SDEV, C_LIGHT, Real.log_one])
    (by simp only [buildModelIn, ModelIn.logShifted, ModelIn.shifted,
        ModelIn.lineShift, ModelIn.sigma]
        norm_num [MAX_SDEV, C_LIGHT, Real.log_one])
  have hA : (buildModelIn (fun t => if t = 0 then (1:ℝ) else if t = 1 then 0 else C_LIGHT)
      1 (fun k => (k:ℝ))
      (fun k => if k = 0 then (-6:ℝ) else if k = 1 then 0 else 6) 2 0
      (fun _ => 1)).A 0 = 1 := by
    rw [← h]
    exact heq
  have hval : (buildModelIn (fun t => if t = 0 then (1:ℝ) else if t = 1 then 0 else C_LIGHT)
      1 (fun k => (k:ℝ))
      (fun k => if k = 0 then (-6:ℝ) else if k = 1 then 0 else 6) 2 0
      (fun _ => 1)).A 0 = SQRT_2PI * Real.exp 0.5 := by
    simp only [buildModelIn, ModelIn.A, ModelIn.c, ModelIn.sigma,
      ModelIn.shifted, ModelIn.lineShift]
    norm_num [C_LIGHT]
  rw [hval] at hA
  have h1 : 2 < SQRT_2PI := by
    rw [SQRT_2PI]
    refine (Real.lt_sqrt (by norm_num)).mpr ?_
    nlinarith [Real.pi_gt_three]
  have h2 : 1 < Real.exp 0.5 := Real.one_lt_exp_iff.mpr (by norm_num)
  nlinarith [h1, h2]

lemma logE_gap (a : ℕ → ℝ) (n : ℕ) (d : ℝ)
    (hd : ∀ k, k < n → d ≤ a (k + 1) - a k) :
    ∀ i j, i ≤ j → j ≤ n → ((j - i : ℕ) : ℝ) * d ≤ a j - a i := by
  intro i j hij hjn
  induction j with
  | zero =>
    have : i = 0 := by omega
    subst this
    simp
  | succ j ih =>
    rcases Nat.lt_or_ge i (j + 1) with hlt | hge
    · have hij' : i ≤ j := by omega
      have hstep := hd j (by omega)
      have hih := ih hij' (by omega)
      have hcast : ((j + 1 - i : ℕ) : ℝ) = ((j - i : ℕ) : ℝ) + 1 := by
        push_cast [Nat.sub_add_comm hij']
        ring
      rw [hcast]
      linarith
    · have : i = j + 1 := by omega
      subst this
      simp

/-- Partial buffer bounds: under strictly increasing log edges,
nonempty line and bin lists, and non-negative sigmas, every
non-skipped line has `hi ≤ nbins + 1` (so the slice
`model_fluxes[lo:hi+1]` stays inside the `nbins+2` buffer) and
`nedges = hi - lo + 2 ≤ max_width` (the `edge_vals` scratch buffer is
large enough).  These two bounds do hold; they do not cover the
`ibin_width` read of the differencing loop, which can go out of bounds
(see the theorem on `ModelIn.diffLoopReadIdx`). -/
theorem model_buffer_safety (M : ModelIn)
    (hmono : ∀ k, k < M.nbins → M.logE k < M.logE (k + 1))
    (hnb : 1 ≤ M.nbins) (hnl : 1 ≤ M.nlines)
    (hsig : ∀ j, j < M.nlines → 0 ≤ M.sig j)
    (j : ℕ) (hj : j < M.nlines) :
    M.hi j ≤ M.nbins + 1 ∧
    (M.hi j ≠ M.lo j → ((M.nedges j : ℤ) ≤ M.maxWidth)) := by
  classical
  refine ⟨ssRight_le _ _ _, ?_⟩
  intro hne
  have hC : (0:ℝ) < C_LIGHT := by norm_num [C_LIGHT]
  have hsj : 0 ≤ M.sigma j := div_nonneg (hsig j hj) hC.le
  have hv : M.logShifted j - MAX_SDEV * M.sigma j ≤
      M.logShifted j + MAX_SDEV * M.sigma j := by
    have : (0:ℝ) ≤ MAX_SDEV * M.sigma j := by
      have h5 : (0:ℝ) ≤ MAX_SDEV := by norm_num [MAX_SDEV]
      positivity
    linarith
  have hsplit : M.hi j = M.lo j +
      ((Finset.range (M.nbins + 1)).filter
        (fun i => M.logShifted j - MAX_SDEV * M.sigma j ≤ M.logE i ∧
          M.logE i ≤ M.logShifted j + MAX_SDEV * M.sigma j)).card :=
    ssRight_eq_ssLeft_add M.logE (M.nbins + 1) _ _ hv
  set T := (Finset.range (M.nbins + 1)).filter
    (fun i => M.logShifted j - MAX_SDEV * M.sigma j ≤ M.logE i ∧
      M.logE i ≤ M.logShifted j + MAX_SDEV * M.sigma j) with hT
  have hTne : T.Nonempty := by
    rw [← Finset.card_pos]
    omega
  set d := M.minDiff with hd
  have hdval : d = Finset.inf' (Finset.range M.nbins)
      (Finset.nonempty_range_iff.mpr (Nat.pos_iff_ne_zero.mp hnb))
      (fun k => M.logE (k + 1) - M.logE k) := by
    rw [hd]
    unfold ModelIn.minDiff
    rw [dif_pos (show 0 < M.nbins by omega)]
  have hdpos : 0 < d := by
    rw [hdval]
    rw [Finset.lt_inf'_iff]
    intro k hk
    have := hmono k (Finset.mem_range.mp hk)
    linarith
  have hdle : ∀ k, k < M.nbins → d ≤ M.logE (k + 1) - M.logE k := by
    intro k hk
    rw [hdval]
    exact Finset.inf'_le _ (Finset.mem_range.mpr hk)
  have hsmax : M.sigma j ≤ M.sigmaMax := by
    unfold ModelIn.sigmaMax
    rw [dif_pos (by omega : 0 < M.nlines)]
    exact Finset.le_sup' (fun j => M.sig j / C_LIGHT) (Finset.mem_range.mpr hj)
  have hsmax0 : 0 ≤ M.sigmaMax := le_trans hsj hsmax
  set m := T.min' hTne with hm
  set Mx := T.max' hTne with hMx
  have hmmem : m ∈ T := T.min'_mem hTne
  have hMxmem : Mx ∈ T := T.max'_mem hTne
  have hmMx : m ≤ Mx := T.min'_le _ hMxmem
  have hmprop := Finset.mem_filter.mp hmmem
  have hMxprop := Finset.mem_filter.mp hMxmem
  have hMxn : Mx ≤ M.nbins := by
    have := Finset.mem_range.mp hMxprop.1
    omega
  have hcardle : T.card ≤ Mx - m + 1 := by
    have hsub : T ⊆ Finset.Icc m Mx := by
      intro i hi
      rw [Finset.mem_Icc]
      exact ⟨T.min'_le i hi, T.le_max' i hi⟩
    have := Finset.card_le_card hsub
    rw [Nat.card_Icc] at this
    omega
  have hgap := logE_gap M.logE M.nbins d hdle m Mx hmMx hMxn
  have hspan : M.logE Mx - M.logE m ≤ 2 * MAX_SDEV * M.sigma j := by
    have h1 := hmprop.2.1
    have h2 := hMxprop.2.2
    have : M.logE Mx - M.logE m ≤
        (M.logShifted j + MAX_SDEV * M.sigma j) -
        (M.logShifted j - MAX_SDEV * M.sigma j) := by linarith
    linarith [this]
  have hdiv : ((Mx - m : ℕ) : ℝ) ≤ 2 * MAX_SDEV * M.sigmaMax / d := by
    rw [le_div_iff₀ hdpos]
    have h1 : ((Mx - m : ℕ) : ℝ) * d ≤ 2 * MAX_SDEV * M.sigma j := by
      linarith [hgap, hspan]
    have h2 : 2 * MAX_SDEV * M.sigma j ≤ 2 * MAX_SDEV * M.sigmaMax := by
      have h5 : (0:ℝ) ≤ 2 * MAX_SDEV := by norm_num [MAX_SDEV]
      nlinarith
    linarith
  have hfloor : ((Mx - m : ℕ) : ℤ) ≤ ⌊2 * MAX_SDEV * M.sigmaMax / d⌋ := by
    rw [Int.le_floor]
    exact_mod_cast hdiv
  have hpy : M.maxWidth = ⌊2 * MAX_SDEV * M.sigmaMax / d⌋ + 4 := by
    unfold ModelIn.maxWidth pyInt
    rw [if_pos]
    have : (0:ℝ) ≤ 2 * MAX_SDEV * M.sigmaMax / d := by
      have h5 : (0:ℝ) ≤ 2 * MAX_SDEV := by norm_num [MAX_SDEV]
      positivity
    exact this
  rw [hpy]
  unfold ModelIn.nedges
  have hk2 : M.hi j - M.lo j ≤ Mx - m + 1 := by omega
  omega

lemma ssLeft_two (a : ℕ → ℝ) (v : ℝ) (h0 : a 0 < v) (h1 : ¬ a 1 < v) :
    ssLeft a 2 v = 1 := by
  unfold ssLeft
  rw [show (2:ℕ) = 1 + 1 from rfl, Finset.range_succ, Finset.filter_insert,
    if_neg h1, Finset.range_one, Finset.filter_singleton, if_pos h0,
    Finset.card_singleton]

lemma ssRight_two (a : ℕ → ℝ) (v : ℝ) (h0 : a 0 ≤ v) (h1 : a 1 ≤ v) :
    ssRight a 2 v = 2 := by
  unfold ssRight
  rw [show (2:ℕ) = 1 + 1 from rfl, Finset.range_succ, Finset.filter_insert,
    if_pos h1, Finset.range_one, Finset.filter_singleton, if_pos h0,
    Finset.card_insert_of_not_mem (by simp), Finset.card_singleton]

/-- C10: the claim's "every buffer access is in bounds" fails on the
code.  At this concrete input — log edges `(0, 1)` strictly increasing,
one line with `sigma = 0 ≥ 0` whose log-center is exactly the top edge
— the line is not skipped (`lo = 1 < hi = 2`), and the differencing
loop's last read of `ibin_width` is at index
`(nedges - 2) + lo = hi = nbins + 1 = 2`, while
`ibin_width = hstack(([0.], 1/diff(obs_bin_edges)))` has only
`nbins + 1 = 2` entries (valid indices `0 .. nbins = 1`): an
out-of-bounds read.  `model_fluxes` has a top dummy slot for the
`hi == nbins + 1` case, but `ibin_width` was never padded at the top. -/
theorem model_ibin_width_read_out_of_bounds :
    (∀ k, k < (buildModelIn (fun t => if t = 0 then (1:ℝ) else 0) 1
        (fun k => ((k:ℝ) + 1)) (fun k => (k:ℝ)) 1 0
        (fun _ => Real.exp 1)).nbins →
      (buildModelIn (fun t => if t = 0 then (1:ℝ) else 0) 1
        (fun k => ((k:ℝ) + 1)) (fun k => (k:ℝ)) 1 0
        (fun _ => Real.exp 1)).logE k <
      (buildModelIn (fun t => if t = 0 then (1:ℝ) else 0) 1
        (fun k => ((k:ℝ) + 1)) (fun k => (k:ℝ)) 1 0
        (fun _ => Real.exp 1)).logE (k + 1)) ∧
    (∀ j, j < (buildModelIn (fun t => if t = 0 then (1:ℝ) else 0) 1
        (fun k => ((k:ℝ) + 1)) (fun k => (k:ℝ)) 1 0
        (fun _ => Real.exp 1)).nlines →
      0 ≤ (buildModelIn (fun t => if t = 0 then (1:ℝ) else 0) 1
        (fun k => ((k:ℝ) + 1)) (fun k => (k:ℝ)) 1 0
        (fun _ => Real.exp 1)).sig j) ∧
    (buildModelIn (fun t => if t = 0 then (1:ℝ) else 0) 1
        (fun k => ((k:ℝ) + 1)) (fun k => (k:ℝ)) 1 0
        (fun _ => Real.exp 1)).hi 0 ≠
      (buildModelIn (fun t => if t = 0 then (1:ℝ) else 0) 1
        (fun k => ((k:ℝ) + 1)) (fun k => (k:ℝ)) 1 0
        (fun _ => Real.exp 1)).lo 0 ∧
    (buildModelIn (fun t => if t = 0 then (1:ℝ) else 0) 1
        (fun k => ((k:ℝ) + 1)) (fun k => (k:ℝ)) 1 0
        (fun _ => Real.exp 1)).diffLoopReadIdx 0
      ((buildModelIn (fun t => if t = 0 then (1:ℝ) else 0) 1
        (fun k => ((k:ℝ) + 1)) (fun k => (k:ℝ)) 1 0
        (fun _ => Real.exp 1)).nedges 0 - 2) =
      (buildModelIn (fun t => if t = 0 then (1:ℝ) else 0) 1
        (fun k => ((k:ℝ) + 1)) (fun k => (k:ℝ)) 1 0
        (fun _ => Real.exp 1)).nbins + 1 ∧
    (buildModelIn (fun t => if t = 0 then (1:ℝ) else 0) 1
        (fun k => ((k:ℝ) + 1)) (fun k => (k:ℝ)) 1 0
        (fun _ => Real.exp 1)).nbins <
      (buildModelIn (fun t => if t = 0 then (1:ℝ) else 0) 1
        (fun k => ((k:ℝ) + 1)) (fun k => (k:ℝ)) 1 0
        (fun _ => Real.exp 1)).diffLoopReadIdx 0
      ((buildModelIn (fun t => if t = 0 then (1:ℝ) else 0) 1
        (fun k => ((k:ℝ) + 1)) (fun k => (k:ℝ)) 1 0
        (fun _ => Real.exp 1)).nedges 0 - 2) := by
  have hlog : (buildModelIn (fun t => if t = 0 then (1:ℝ) else 0) 1
      (fun k => ((k:ℝ) + 1)) (fun k => (k:ℝ)) 1 0
      (fun _ => Real.exp 1)).logShifted 0 = 1 := by
    simp only [buildModelIn, ModelIn.logShifted, ModelIn.shifted,
      ModelIn.lineShift]
    norm_num [Real.log_exp]
  have hsig0 : (buildModelIn (fun t => if t = 0 then (1:ℝ) else 0) 1
      (fun k => ((k:ℝ) + 1)) (fun k => (k:ℝ)) 1 0
      (fun _ => Real.exp 1)).sigma 0 = 0 := by
    simp only [buildModelIn, ModelIn.sigma]
    norm_num
  have hlo : (buildModelIn (fun t => if t = 0 then (1:ℝ) else 0) 1
      (fun k => ((k:ℝ) + 1)) (fun k => (k:ℝ)) 1 0
      (fun _ => Real.exp 1)).lo 0 = 1 := by
    unfold ModelIn.lo
    rw [show (buildModelIn (fun t => if t = 0 then (1:ℝ) else 0) 1
      (fun k => ((k:ℝ) + 1)) (fun k => (k:ℝ)) 1 0
      (fun _ => Real.exp 1)).logShifted 0 -
        MAX_SDEV * (buildModelIn (fun t => if t = 0 then (1:ℝ) else 0) 1
          (fun k => ((k:ℝ) + 1)) (fun k => (k:ℝ)) 1 0
          (fun _ => Real.exp 1)).sigma 0 = 1 by
      rw [hlog, hsig0]; norm_num [MAX_SDEV]]
    refine ssLeft_two _ _ ?_ ?_
    · show ((0:ℕ):ℝ) < 1
      norm_num
    · show ¬ ((1:ℕ):ℝ) < 1
      norm_num
  have hhi : (buildModelIn (fun t => if t = 0 then (1:ℝ) else 0) 1
      (fun k => ((k:ℝ) + 1)) (fun k => (k:ℝ)) 1 0
      (fun _ => Real.exp 1)).hi 0 = 2 := by
    unfold ModelIn.hi
    rw [show (buildModelIn (fun t => if t = 0 then (1:ℝ) else 0) 1
      (fun k => ((k:ℝ) + 1)) (fun k => (k:ℝ)) 1 0
      (fun _ => Real.exp 1)).logShifted 0 +
        MAX_SDEV * (buildModelIn (fun t => if t = 0 then (1:ℝ) else 0) 1
          (fun k => ((k:ℝ) + 1)) (fun k => (k:ℝ)) 1 0
          (fun _ => Real.exp 1)).sigma 0 = 1 by
      rw [hlog, hsig0]; norm_num [MAX_SDEV]]
    refine ssRight_two _ _ ?_ ?_
    · show ((0:ℕ):ℝ) ≤ 1
      norm_num
    · show ((1:ℕ):ℝ) ≤ 1
      norm_num
  refine ⟨?_, ?_, ?_, ?_, ?_⟩
  · intro k hk
    show ((k:ℝ)) < ((k + 1 : ℕ) : ℝ)
    push_cast
    linarith
  · intro j _
    show (0:ℝ) ≤ if 2 * 1 + j = 0 then (1:ℝ) else 0
    rw [if_neg (by omega : ¬ 2 * 1 + j = 0)]
  · rw [hhi, hlo]
    norm_num
  · unfold ModelIn.diffLoopReadIdx ModelIn.nedges
    rw [hhi, hlo]
    norm_num [buildModelIn]
  · unfold ModelIn.diffLoopReadIdx ModelIn.nedges
    rw [hhi, hlo]
    norm_num [buildModelIn]

lemma objModelLoop_val (R : ℕ → ℕ → ℕ → ℝ) (pFull : ℕ → ℝ) (nlines : ℕ)
    (obs logE : ℕ → ℝ) (z : ℝ) (lw : ℕ → ℝ) (cps : ℕ → ℕ × ℕ) (f : ℕ → ℝ)
    (icam b : ℕ) (hb1 : (cps icam).1 ≤ b) (hb2 : b < (cps icam).2) (m : ℕ) :
    icam < m →
    (∀ k', icam < k' → k' < m → ¬((cps k').1 ≤ b ∧ b < (cps k').2)) →
    objModelLoop R pFull nlines obs logE z lw cps m f b =
      camModel R pFull nlines obs logE z lw cps icam (b - (cps icam).1) := by
  induction m with
  | zero => intro h; omega
  | succ m ih =>
    intro hm hlater
    simp only [objModelLoop]
    by_cases hcamm : icam = m
    · subst hcamm
      rw [if_pos ⟨hb1, hb2⟩]
    · have hlt : icam < m := by omega
      rw [if_neg (hlater m (by omega) (by omega))]
      exact ih hlt (fun k' h1 h2 => hlater k' h1 (by omega))

/-- C1 (amended): for a bin `b` in camera `icam`'s range (no later
camera's range containing `b`), `_objective` returns
`obs_weights[b] * (obs_fluxes[b] - model_fluxes[b])`, where
`model_fluxes[b]` is row `b - s` of that camera's resolution matrix
applied to the model built from the *expanded* parameter vector.  The
function retains no state between calls, but it does mutate its
`parameters` argument, leaving the expanded values in it. -/
theorem objective_returns_weighted_residuals (free : ℕ → ℝ)
    (obs logE obs_fluxes obs_weights : ℕ → ℝ) (z : ℝ) (lw : ℕ → ℝ)
    (nlines : ℕ) (R : ℕ → ℕ → ℕ → ℝ) (cps : ℕ → ℕ × ℕ) (ncam : ℕ)
    (p : ℕ → ℝ) (Ifree Itied tiedtoparam : List ℕ) (tiedfactor : List ℝ)
    (dind dpair : List ℕ) (junk : ℕ → ℝ) (icam b : ℕ)
    (hicam : icam < ncam) (hb1 : (cps icam).1 ≤ b) (hb2 : b < (cps icam).2)
    (hdisj : ∀ k', icam < k' → k' < ncam → ¬((cps k').1 ≤ b ∧ b < (cps k').2)) :
    objectiveResiduals free obs logE obs_fluxes obs_weights z lw nlines R cps
        ncam p Ifree Itied tiedtoparam tiedfactor dind dpair junk b =
      obs_weights b * (obs_fluxes b -
        camModel R (expandParams p free Ifree Itied tiedtoparam tiedfactor dind dpair)
          nlines obs logE z lw cps icam (b - (cps icam).1)) := by
  unfold objectiveResiduals
  rw [objModelLoop_val R _ nlines obs logE z lw cps junk icam b hb1 hb2 ncam
    hicam hdisj]

/-- C1 witness: a single camera covering bin 0. -/
theorem objective_returns_weighted_residuals_witness :
    (0:ℕ) < 1 ∧ ((fun _ : ℕ => ((0:ℕ), (1:ℕ))) 0).1 ≤ 0 ∧
    (0:ℕ) < ((fun _ : ℕ => ((0:ℕ), (1:ℕ))) 0).2 ∧
    objectiveResiduals (fun _ => (1:ℝ)) (fun k => (k:ℝ)) (fun k => (k:ℝ))
        (fun _ => 0) (fun _ => 1) 0 (fun _ => 1) 1 (fun _ _ _ => 0)
        (fun _ => (0, 1)) 1 (fun _ => 0) [0] [] [] [] [] [] (fun _ => 0) 0 =
      (fun _ : ℕ => (1:ℝ)) 0 * ((fun _ : ℕ => (0:ℝ)) 0 -
        camModel (fun _ _ _ => 0)
          (expandParams (fun _ => 0) (fun _ => (1:ℝ)) [0] [] [] [] [] [])
          1 (fun k => (k:ℝ)) (fun k => (k:ℝ)) 0 (fun _ => 1)
          (fun _ => (0, 1)) 0 (0 - ((fun _ : ℕ => ((0:ℕ), (1:ℕ))) 0).1)) :=
  ⟨Nat.one_pos, by simp, by simp,
    objective_returns_weighted_residuals (fun _ => (1:ℝ)) (fun k => (k:ℝ))
      (fun k => (k:ℝ)) (fun _ => 0) (fun _ => 1) 0 (fun _ => 1) 1
      (fun _ _ _ => 0) (fun _ => (0, 1)) 1 (fun _ => 0) [0] [] [] [] [] []
      (fun _ => 0) 0 0 Nat.one_pos (by simp) (by simp)
      (fun k' h1 h2 => by omega)⟩

/-- C1 counterexample: `_objective` does not leave the `parameters`
array unchanged: with `parameters = [0,...]`, `Ifree = [0]` and
`free_parameters = [1]`, slot 0 holds `1`, not its original `0`, when
the call returns. -/
theorem objective_mutates_parameters :
    expandParams (fun _ => (0:ℝ)) (fun _ => 1) [0] [] [] [] [] [] 0 ≠
      (fun _ : ℕ => (0:ℝ)) 0 := by
  unfold expandParams doubletStep tiedLoop scatterAssign
  simp [List.range_succ, Function.update]

/-- C9 witness: one segment with a single center. -/
theorem centers_to_edges_short_segment_witness :
    (0:ℕ) < 1 ∧ ((fun _k : ℕ => ((0:ℕ), (1:ℕ))) 0).2 -
        ((fun _k : ℕ => ((0:ℕ), (1:ℕ))) 0).1 < 2 ∧
    centers_to_edges (fun i => (i : ℚ)) (fun _k => (0, 1)) 1 (fun _p => 0) = none :=
  ⟨by omega, by simp only []; omega,
    centers_to_edges_short_segment (fun i => (i : ℚ)) (fun _k => (0, 1)) 1
      (fun _p => 0) 0 (by omega) (by simp only []; omega)⟩

end FasterSpecFit
